import Mathlib

/-!
Shallow embedding of `pyro/distributions/lkj.py` and verification of the
spec's claims about it.  Tensors of floats are modelled as real-valued
sequences (`ℕ → ℝ`) or lists; matrices as `ℕ → ℕ → ℝ` together with an
explicit order `D`.  Exact rational arithmetic (`ℚ`) is used for the pieces
of the code that involve only field operations, so that they stay
executable.
-/

namespace LKJ

/-! ### `_TanhTransform` (lkj.py lines 42-58) -/

/-- Forward map of `_TanhTransform._call` (line 51-52): `x.tanh()`. -/
noncomputable def tanhForward (x : ℝ) : ℝ := Real.tanh x

/-- Inverse map of `_TanhTransform._inverse` (line 54-55):
`log((1 + y) / (1 - y)) / 2`. -/
noncomputable def tanhInverse (y : ℝ) : ℝ := Real.log ((1 + y) / (1 - y)) / 2

/-- `_TanhTransform.log_abs_det_jacobian(x, y)` (line 57-58):
`(-2) * y.cosh().log()`.  Note the code reads only its second argument `y`,
the output `tanh x` of the forward map. -/
noncomputable def tanhLogAbsDetJacobian (x y : ℝ) : ℝ :=
  (-2) * Real.log (Real.cosh y)

/-! ### `_CorrCholesky.check` (lkj.py lines 18-30) -/

/-- `value.tril()` (line 24): keep entries on or below the diagonal. -/
def tril (M : ℕ → ℕ → ℝ) (i j : ℕ) : ℝ := if j ≤ i then M i j else 0

/-- Line 25: the boolean `min` over the flattened tensor `value_tril == value`
is `true` iff every entry agrees with its lower-triangular projection. -/
def lowerTriangular (D : ℕ) (M : ℕ → ℕ → ℝ) : Prop :=
  ∀ i < D, ∀ j < D, tril M i j = M i j

/-- Line 27: every diagonal entry is strictly positive. -/
def positiveDiagonal (D : ℕ) (M : ℕ → ℕ → ℝ) : Prop :=
  ∀ i < D, 0 < M i i

/-- `value.pow(2).sum(-1)` restricted to row `i` (line 29). -/
noncomputable def rowSumSq (D : ℕ) (M : ℕ → ℕ → ℝ) (i : ℕ) : ℝ :=
  ∑ j ∈ Finset.range D, M i j ^ 2

/-- Line 29: every row's sum of squares is within `1e-6` of `1`. -/
noncomputable def unitNormRow (D : ℕ) (M : ℕ → ℕ → ℝ) : Prop :=
  ∀ i < D, |rowSumSq D M i - 1| < 1e-6

/-- `_CorrCholesky.check` (lines 23-30): conjunction of the three component
checks (line 30 takes the boolean `&` of the three reduced flags). -/
noncomputable def corrCholeskyCheck (D : ℕ) (M : ℕ → ℕ → ℝ) : Prop :=
  lowerTriangular D M ∧ positiveDiagonal D M ∧ unitNormRow D M

/-- The validator as the spec's words state it (spec 4.1): the matrix has
zero entries strictly above the diagonal, strictly positive diagonal
entries, and each row's sum of squares within `1e-6` of `1`. -/
noncomputable def corrCholeskySpecPred (D : ℕ) (M : ℕ → ℕ → ℝ) : Prop :=
  (∀ i < D, ∀ j < D, i < j → M i j = 0) ∧
  (∀ i < D, 0 < M i i) ∧
  (∀ i < D, |rowSumSq D M i - 1| < 1e-6)

/-! ### `_PartialCorrToCorrCholeskyTransform._call` (lkj.py lines 79-103)

The loop fills the matrix column by column.  Column `j` consumes the slice
`z[offset(j) : offset(j) + D-1-j]` of the input vector, where `offset(j)`
accumulates `distance_to_copy = D-1-k` over the previous columns `k`
(variable `i` in the code, starting at `D-1` after column 0 used `z[:D-1]`).
The running tensor `last_squared_x` holds, for each remaining row, the sum
of squares of the entries already placed in that row; each new sub-diagonal
entry is the next `z` value scaled by `sqrt(1 - last_squared_x[row])`, and
each diagonal entry is `sqrt(1 - last_squared_x[j])`.  The definitions
below express exactly that recursion entry-wise. -/

/-- Start index in `z` of the slice consumed by column `j`. -/
def colOffset (D j : ℕ) : ℕ := ∑ k ∈ Finset.range j, (D - 1 - k)

/-- The `z`-value feeding entry `(i, j)` of the matrix (row `i`, column `j`,
`j < i`): column `j`'s slice starts at `colOffset D j` and row `i` is its
`(i - j - 1)`-th element. -/
def rowZ (z : ℕ → ℝ) (D i : ℕ) (j : ℕ) : ℝ := z (colOffset D j + (i - j - 1))

/-- Running sum of squares of the entries placed so far in one row, fed by
that row's `z`-values `w`: the code's `last_squared_x` specialised to one
row.  Each placed entry is `w j * sqrt(1 - pcSq w j)`. -/
noncomputable def pcSq (w : ℕ → ℝ) : ℕ → ℝ
  | 0 => 0
  | j + 1 => pcSq w j + (w j * Real.sqrt (1 - pcSq w j)) ^ 2

/-- Sub-diagonal entry in a row with `z`-values `w`, at column `j`:
`new_z * (1 - last_squared_x).sqrt()` (line 99; column 0, line 88, is the
special case `sqrt(1 - 0) = 1`). -/
noncomputable def pcEntry (w : ℕ → ℝ) (j : ℕ) : ℝ :=
  w j * Real.sqrt (1 - pcSq w j)

/-- The matrix built by `_call` (lines 85-103): zeros above the diagonal,
`sqrt(1 - last_squared_x)` on it (line 98; `x[0,0] = 1 = sqrt(1-0)`,
line 87), scaled `z`-values below it (lines 88 and 99-100). -/
noncomputable def vineX (D : ℕ) (z : ℕ → ℝ) (i j : ℕ) : ℝ :=
  if i < j then 0
  else if i = j then Real.sqrt (1 - pcSq (rowZ z D i) i)
  else pcEntry (rowZ z D i) j

/-! ### `_PartialCorrToCorrCholeskyTransform._inverse` (lkj.py lines 105-123)

Modelled faithfully, including its defects.  The `for j` loop only updates
`last_squared_x` (the statements `current_x = x[j:, j]` and the append are
at function level, lines 120-121, and run once after the loop with `j`
keeping its final value `D - 1`).  Inside the loop `current_x` is never
reassigned, so every iteration after the first adds the same tensor
`x[2:, 0]**2` via an in-place broadcast add.  The final division
broadcasts the single entry `x[D-1, D-1]` against a length-`D-1` tensor.
Shape errors (failed broadcasts; `D < 2`, where `j` is never bound and the
loop leaves `last_squared_x` as `None`) are modelled as `none`. -/

/-- Slice `x[r:, j]` of a `D` by `D` matrix, as a list. -/
def colSlice (D : ℕ) (x : ℕ → ℕ → ℝ) (r j : ℕ) : List ℝ :=
  (List.range (D - r)).map fun t => x (r + t) j

/-- Torch in-place broadcast add `a += b`: `b` must have `a`'s length or
length 1. -/
noncomputable def bcastAddInPlace (a b : List ℝ) : Option (List ℝ) :=
  if b.length = a.length then some (List.zipWith (· + ·) a b)
  else if b.length = 1 then some (a.map (· + b.headI))
  else none

/-- Torch broadcast division `a / b`. -/
noncomputable def bcastDiv (a b : List ℝ) : Option (List ℝ) :=
  if a.length = b.length then some (List.zipWith (· / ·) a b)
  else if a.length = 1 then some (b.map (a.headI / ·))
  else if b.length = 1 then some (a.map (· / b.headI))
  else none

/-- `_inverse` (lines 105-123) as the code executes it. -/
noncomputable def pcInverseCode (D : ℕ) (x : ℕ → ℕ → ℝ) : Option (List ℝ) :=
  if D < 2 then none
  else
    let zstack0 := colSlice D x 1 0
    let lsq0 := zstack0.map fun t => t ^ 2
    let addend := (zstack0.drop 1).map fun t => t ^ 2
    let lsq := (List.range (D - 2)).foldl
      (fun acc _ => acc.bind fun a => bcastAddInPlace a addend) (some lsq0)
    lsq.bind fun a =>
      (bcastDiv (colSlice D x (D - 1) (D - 1))
        (a.map fun t => Real.sqrt (1 - t))).map
        fun tailPart => zstack0 ++ tailPart

/-! ### `log_abs_det_jacobian` of the vine transform (lkj.py lines 125-126) -/

/-- `x.tril(-1)` (line 126): keep entries strictly below the diagonal. -/
def trilStrict (M : ℕ → ℕ → ℝ) (i j : ℕ) : ℝ := if j < i then M i j else 0

/-- Line 126: `(1 - x.tril(-1).pow(2).sum(1)).log().sum() * .5` — per ROW,
the log of one minus that row's total sum of squared sub-diagonal entries,
summed over rows and halved. -/
noncomputable def pcLogAbsDetJacobian (D : ℕ) (x : ℕ → ℕ → ℝ) : ℝ :=
  (∑ i ∈ Finset.range D,
    Real.log (1 - ∑ j ∈ Finset.range D, trilStrict x i j ^ 2)) * 0.5

/-- The Jacobian formula as the spec's words state it: one half times the
sum of `log(1 - t^2)` over every strictly-lower-triangular entry `t`
individually. -/
noncomputable def perEntryJacobian (D : ℕ) (x : ℕ → ℕ → ℝ) : ℝ :=
  0.5 * ∑ i ∈ Finset.range D, ∑ j ∈ Finset.range i, Real.log (1 - x i j ^ 2)

/-! ### `CorrCholeskyTransform` (lkj.py lines 129-135): tanh then vine -/

/-- Composed forward map: squash every coordinate with `tanh`, then apply
the vine construction. -/
noncomputable def composeForward (D : ℕ) (u : ℕ → ℝ) : ℕ → ℕ → ℝ :=
  vineX D fun m => tanhForward (u m)

/-- Composed inverse as the code executes it: the vine `_inverse`, then the
tanh `_inverse` on every coordinate. -/
noncomputable def composeInverseCode (D : ℕ) (x : ℕ → ℕ → ℝ) :
    Option (List ℝ) :=
  (pcInverseCode D x).map fun l => l.map tanhInverse

/-! ### `LKJCholeskyFactor.__init__` (lkj.py lines 167-186)

The concentration vector is filled sequentially: a running `alpha` starts at
`eta + 0.5 * (d - 1)`, and for each `k` in `range(d-1)` it is decremented
by `0.5` and written into the next `d - 1 - k` slots.  Exact rational
arithmetic models the float arithmetic (all operations here are additions
of halves, exact in floating point as well). -/

/-- The concentration vector built by the loop at lines 173-181. -/
def concList (d : ℕ) (eta : ℚ) : List ℚ :=
  ((List.range (d - 1)).foldl
    (fun acc k => (acc.1 ++ List.replicate (d - 1 - k) (acc.2 - 0.5),
                   acc.2 - 0.5))
    (([] : List ℚ), eta + 0.5 * ((d : ℚ) - 1))).1

/-- Python runtime errors relevant to this module. -/
inductive PyError where
  | nameError (msg : String)
  | valueError (msg : String)
deriving DecidableEq

/-- The validation and concentration-vector part of `__init__`
(lines 167-181).  When `eta <= 0` the code executes
`raise ValueException("eta must be > 0")` (line 171), but `ValueException`
is an undefined name, so Python raises a `NameError` rather than a defined
parameter error. -/
def lkjInit (d : ℕ) (eta : ℚ) : Except PyError (List ℚ) :=
  if eta ≤ 0 then
    Except.error (PyError.nameError "name ValueException is not defined")
  else Except.ok (concList d eta)

/-! ### `LKJCholeskyFactor.lkj_constant` (lkj.py lines 191-203) -/

/-- `torch.lgamma`: log of the absolute value of the Gamma function. -/
noncomputable def lgamma (x : ℝ) : ℝ := Real.log |Real.Gamma x|

/-- `torch.linspace(start=1, end=n, steps=n)`: the list `[1, 2, ..., n]`. -/
noncomputable def linspaceOneTo (n : ℕ) : List ℝ :=
  (List.range n).map fun m : ℕ => (m : ℝ) + 1

/-- The normalizing constant exactly as lines 195-200 compute it:
`lgamma(eta + 0.5*Km1) * Km1` minus the sum over the linspace `[1..Km1]` of
`k * (log(pi) * 0.5) + lgamma(eta + 0.5 * (Km1 - k))`. -/
noncomputable def lkjConstantCode (eta : ℝ) (K : ℕ) : ℝ :=
  let Km1 : ℝ := (K : ℝ) - 1
  lgamma (eta + 0.5 * Km1) * Km1 -
    ((linspaceOneTo (K - 1)).map
      (fun k => k * (Real.log Real.pi * 0.5) +
        lgamma (eta + 0.5 * (Km1 - k)))).sum

/-- The normalizing constant as the spec's words state it:
`C(eta, K) = (K-1) * logGamma(eta + (K-1)/2)
  - sum over k = 1 .. K-1 of (k * (log(pi)/2) + logGamma(eta + (K-1-k)/2))`. -/
noncomputable def lkjConstantSpec (eta : ℝ) (K : ℕ) : ℝ :=
  ((K : ℝ) - 1) * lgamma (eta + ((K : ℝ) - 1) / 2) -
    ∑ k ∈ Finset.Icc 1 (K - 1),
      ((k : ℝ) * (Real.log Real.pi / 2) +
        lgamma (eta + ((K : ℝ) - 1 - (k : ℝ)) / 2))

/-- The instance state touched by `lkj_constant`: the memo field
`_lkj_constant`, set to `None` at line 186. -/
structure LKJState where
  cache : Option ℝ

/-- State after `__init__` (line 186): empty cache. -/
def lkjFreshState : LKJState := ⟨none⟩

/-- One call of `lkj_constant(eta, K)` (lines 191-203): if the cache is
set, return it unchanged (lines 192-193) ignoring the arguments; otherwise
compute the constant from the arguments, store it and return it. -/
noncomputable def lkjConstantCall (s : LKJState) (eta : ℝ) (K : ℕ) :
    ℝ × LKJState :=
  match s.cache with
  | some c => (c, s)
  | none => (lkjConstantCode eta K, ⟨some (lkjConstantCode eta K)⟩)

/-! ### `LKJCholeskyFactor.log_prob` (lkj.py lines 205-215)

As written, the body crashes: it calls a free function `lkj_constant`
(line 208) that does not exist at module level, uses an undefined
lower-case `km1` (line 212), and calls a nonexistent `Tensor.tail`
(line 211).  The spec (section 9) directs that these are name defects to
fix, keeping the computation the lines describe.  The model below is that
computation with the names repaired: `log_diagonals` is the log of the last
`K-1` diagonal entries of `x`, `values` scales entry `m` (diagonal index
`m+1`) by `linspace(K-2, 0, K-1)[m] = K-2-m` and adds
`log_diagonals * (eta*2 - 2)`, and the result is `values.sum() + lp`. -/

/-- `log_prob` with the undefined names repaired (the computation lines
205-215 describe). -/
noncomputable def logProbFixed (eta : ℝ) (K : ℕ) (x : ℕ → ℕ → ℝ) : ℝ :=
  let lp := lkjConstantCode eta K
  (∑ m ∈ Finset.range (K - 1),
    (((K : ℝ) - 1 - 1 - (m : ℝ)) * Real.log (x (m + 1) (m + 1)) +
      Real.log (x (m + 1) (m + 1)) * (eta * 2 + (-2 : ℝ)))) + lp

/-- The density formula as the spec's words state it:
`C(eta, K) + sum over m = 1 .. K-1 of (K - 1 - m + 2*eta - 2) * log x[m,m]`. -/
noncomputable def logProbClaim (eta : ℝ) (K : ℕ) (x : ℕ → ℕ → ℝ) : ℝ :=
  lkjConstantCode eta K +
    ∑ m ∈ Finset.Icc 1 (K - 1),
      (((K : ℝ) - 1 - (m : ℝ) + 2 * eta - 2) * Real.log (x m m))

/-! ### Concrete matrices used as test inputs -/

/-- Lower-triangular matrix with positive diagonal whose last row has sum of
squares `(3/10)^2 + (1/10)^2 + 1 = 1.1`, out of the validator's tolerance. -/
noncomputable def badNormM : ℕ → ℕ → ℝ
  | 0, 0 => 1
  | 1, 0 => 3 / 5
  | 1, 1 => 4 / 5
  | 2, 0 => 3 / 10
  | 2, 1 => 1 / 10
  | 2, 2 => 1
  | _, _ => 0

/-- Lower-triangular matrix with positive diagonal whose last row has sum of
squares `(3/10000)^2 + (1/10000)^2 + 1 = 1.0000001`, inside the tolerance. -/
noncomputable def goodNormM : ℕ → ℕ → ℝ
  | 0, 0 => 1
  | 1, 0 => 3 / 5
  | 1, 1 => 4 / 5
  | 2, 0 => 3 / 10000
  | 2, 1 => 1 / 10000
  | 2, 2 => 1
  | _, _ => 0

/-- A valid 3 by 3 correlation-Cholesky factor (every row has Euclidean norm
exactly 1) whose row 2 has two sub-diagonal entries, separating the per-row
Jacobian aggregation from the per-entry one. -/
noncomputable def jacM : ℕ → ℕ → ℝ
  | 0, 0 => 1
  | 1, 0 => 1 / 2
  | 1, 1 => Real.sqrt 3 / 2
  | 2, 0 => 1 / 2
  | 2, 1 => 1 / 2
  | 2, 2 => Real.sqrt 2 / 2
  | _, _ => 0

/-! ## Theorems -/

/-- C10: on a fresh instance, the first `lkj_constant` call computes and
caches its result, and any later call — with arbitrary, possibly different,
`eta` and `K` arguments — returns that cached value and leaves the state
unchanged, so by iteration every subsequent call returns the first result. -/
theorem lkjConstant_memoized (eta : ℝ) (K : ℕ) (eta' : ℝ) (K' : ℕ) :
    lkjConstantCall (lkjConstantCall lkjFreshState eta K).2 eta' K' =
      lkjConstantCall lkjFreshState eta K := rfl

/-- C6 counterexample: the concentration recursion of `__init__`, run at
`D = 3`, `eta = 1`, does not produce `[1.5, 1.0, 1.5]`. -/
theorem concList_three_one_ne : concList 3 1 ≠ [1.5, 1.0, 1.5] := by
  norm_num [concList, List.range_succ, List.replicate_succ]

/-- C6 amended: at `D = 3`, `eta = 1` the recursion assigns `alpha = 1.5` to
the first two entries (`k = 0`) and `alpha = 1.0` to the last (`k = 1`),
giving `[1.5, 1.5, 1.0]`. -/
theorem concList_three_one_eq : concList 3 1 = [1.5, 1.5, 1.0] := by
  norm_num [concList, List.range_succ, List.replicate_succ]

/-- C8: constructing with `eta = -1 <= 0` fails, but with a `NameError`
(the raised `ValueException` is an undefined name), not with a defined,
deliberately raised parameter-validation error. -/
theorem lkjInit_neg_eta_name_error :
    lkjInit 3 (-1) =
      Except.error (PyError.nameError "name ValueException is not defined") ∧
    ∀ msg, lkjInit 3 (-1) ≠ Except.error (PyError.valueError msg) := by
  refine ⟨rfl, ?_⟩
  intro msg h
  rw [lkjInit] at h
  norm_num at h
  exact PyError.noConfusion h

/-- Sum of a function mapped over the linspace `[1, ..., n]`, as a
`Finset.range` sum. -/
lemma linspace_map_sum (g : ℝ → ℝ) (n : ℕ) :
    ((linspaceOneTo n).map g).sum = ∑ i ∈ Finset.range n, g ((i : ℝ) + 1) := by
  induction n with
  | zero => simp [linspaceOneTo]
  | succ n ih =>
    rw [linspaceOneTo, List.range_succ, List.map_append, List.map_append,
      List.sum_append, Finset.sum_range_succ]
    rw [linspaceOneTo] at ih
    rw [ih]
    simp

/-- For `1 <= K`, the index set `1 .. K-1` is the half-open interval
`[1, K)`. -/
lemma icc_one_pred (K : ℕ) (hK : 1 ≤ K) :
    Finset.Icc 1 (K - 1) = Finset.Ico 1 K := by
  rw [← Nat.Ico_succ_right, Nat.succ_eq_add_one, Nat.sub_add_cancel hK]

/-- C4: for every `eta > 0` and `K >= 2`, the normalizing constant computed
by `lkj_constant` equals
`(K-1)*logGamma(eta + (K-1)/2) - sum over k = 1 .. K-1 of
(k*(log(pi)/2) + logGamma(eta + (K-1-k)/2))`. -/
theorem lkjConstant_code_eq_spec (eta : ℝ) (K : ℕ) (heta : 0 < eta)
    (hK : 2 ≤ K) : lkjConstantCode eta K = lkjConstantSpec eta K := by
  simp only [lkjConstantCode, lkjConstantSpec]
  rw [linspace_map_sum, icc_one_pred K (by omega), Finset.sum_Ico_eq_sum_range]
  congr 1
  · have harg : eta + 0.5 * ((K : ℝ) - 1) = eta + ((K : ℝ) - 1) / 2 := by ring
    rw [harg, mul_comm]
  · apply Finset.sum_congr rfl
    intro m _
    push_cast
    congr 1
    · ring
    · congr 1
      ring

/-- Witness for C4 at `eta = 1`, `K = 2`. -/
theorem lkjConstant_code_eq_spec_witness :
    (0 : ℝ) < 1 ∧ 2 ≤ 2 ∧ lkjConstantCode 1 2 = lkjConstantSpec 1 2 :=
  ⟨by norm_num, le_refl 2, lkjConstant_code_eq_spec 1 2 (by norm_num) (le_refl 2)⟩

/-- C5: the density computation of `log_prob` (with its undefined names
repaired as the spec directs) returns exactly
`C(eta, K) + sum over m = 1 .. K-1 of (K - 1 - m + 2*eta - 2) * log x[m,m]`,
for every matrix `x` and every `K >= 2`. -/
theorem logProb_fixed_eq_claim (eta : ℝ) (K : ℕ) (x : ℕ → ℕ → ℝ)
    (hK : 2 ≤ K) : logProbFixed eta K x = logProbClaim eta K x := by
  simp only [logProbFixed, logProbClaim]
  rw [add_comm]
  congr 1
  rw [icc_one_pred K (by omega), Finset.sum_Ico_eq_sum_range]
  apply Finset.sum_congr rfl
  intro m _
  have hidx : 1 + m = m + 1 := by omega
  rw [hidx]
  push_cast
  ring

/-- Witness for C5 at `eta = 1`, `K = 2`, `x` the constant-1 matrix. -/
theorem logProb_fixed_eq_claim_witness :
    2 ≤ 2 ∧ logProbFixed 1 2 (fun _ _ => 1) = logProbClaim 1 2 fun _ _ => 1 :=
  ⟨le_refl 2, logProb_fixed_eq_claim 1 2 (fun _ _ => 1) (le_refl 2)⟩

/-- C9: the validator returns true exactly when the matrix equals its own
lower-triangular part, has strictly positive diagonal, and has every row's
sum of squares within `1e-6` of 1; it rejects the matrix whose last row has
squared sum `1.1` and accepts the one whose last row has squared sum
`1.0000001`. -/
theorem check_characterization :
    (∀ D (M : ℕ → ℕ → ℝ), corrCholeskyCheck D M ↔ corrCholeskySpecPred D M) ∧
    ¬ corrCholeskyCheck 3 badNormM ∧ corrCholeskyCheck 3 goodNormM := by
  refine ⟨?_, ?_, ?_⟩
  · intro D M
    constructor
    · rintro ⟨hl, hp, hn⟩
      refine ⟨?_, hp, hn⟩
      intro i hi j hj hij
      have h := hl i hi j hj
      rw [tril, if_neg (not_le.mpr hij)] at h
      exact h.symm
    · rintro ⟨hl, hp, hn⟩
      refine ⟨?_, hp, hn⟩
      intro i hi j hj
      rw [tril]
      by_cases h : j ≤ i
      · rw [if_pos h]
      · rw [if_neg h, (hl i hi j hj (not_le.mp h))]
  · rintro ⟨-, -, hn⟩
    have h := hn 2 (by norm_num)
    rw [rowSumSq] at h
    norm_num [Finset.sum_range_succ, badNormM, abs_lt] at h
  · refine ⟨?_, ?_, ?_⟩
    · intro i hi j hj
      interval_cases i <;> interval_cases j <;> norm_num [tril, goodNormM]
    · intro i hi
      interval_cases i <;> norm_num [goodNormM]
    · intro i hi
      rw [rowSumSq]
      interval_cases i <;> norm_num [Finset.sum_range_succ, goodNormM, abs_lt]

/-- C2 counterexample: `jacM` is a valid correlation-Cholesky factor on
which the code's per-row Jacobian differs from the claimed per-entry sum
`half of the sum of log(1 - t^2) over the strictly-lower entries t`. -/
theorem jacobian_per_entry_counterexample :
    corrCholeskyCheck 3 jacM ∧
    pcLogAbsDetJacobian 3 jacM ≠ perEntryJacobian 3 jacM := by
  have hsqrt3 : Real.sqrt 3 ^ 2 = 3 := Real.sq_sqrt (by norm_num)
  have hsqrt2 : Real.sqrt 2 ^ 2 = 2 := Real.sq_sqrt (by norm_num)
  constructor
  · refine ⟨?_, ?_, ?_⟩
    · intro i hi j hj
      interval_cases i <;> interval_cases j <;> norm_num [tril, jacM]
    · intro i hi
      interval_cases i <;>
        norm_num [jacM, Real.sqrt_pos]
    · intro i hi
      rw [rowSumSq]
      interval_cases i <;>
        norm_num [Finset.sum_range_succ, jacM, div_pow, hsqrt3, hsqrt2]
  · rw [pcLogAbsDetJacobian, perEntryJacobian]
    norm_num [Finset.sum_range_succ, trilStrict, jacM]
    have h1 : Real.log ((1 : ℝ) / 2) < 2 * Real.log ((3 : ℝ) / 4) := by
      have hlt : Real.log ((1 : ℝ) / 2) < Real.log ((9 : ℝ) / 16) :=
        Real.log_lt_log (by norm_num) (by norm_num)
      have h9 : Real.log ((9 : ℝ) / 16) = 2 * Real.log ((3 : ℝ) / 4) := by
        rw [show ((9 : ℝ) / 16) = ((3 : ℝ) / 4) ^ 2 by norm_num, Real.log_pow]
        norm_num
      linarith [h9 ▸ hlt]
    intro heq
    linarith

/-- C2 amended: for every matrix, the vine transform's Jacobian value is one
half times the sum over rows of `log` of one minus that row's total sum of
squared strictly-sub-diagonal entries (per-row aggregation inside the log,
not per-entry). -/
theorem jacobian_row_formula (D : ℕ) (x : ℕ → ℕ → ℝ) :
    pcLogAbsDetJacobian D x =
      0.5 * ∑ i ∈ Finset.range D,
        Real.log (1 - ∑ j ∈ Finset.range i, x i j ^ 2) := by
  rw [pcLogAbsDetJacobian, mul_comm]
  congr 1
  apply Finset.sum_congr rfl
  intro i hi
  have hsub : i ≤ D := le_of_lt (Finset.mem_range.mp hi)
  congr 2
  rw [← Finset.sum_subset (Finset.range_subset.mpr hsub)]
  · apply Finset.sum_congr rfl
    intro j hj
    rw [trilStrict, if_pos (Finset.mem_range.mp hj)]
  · intro j _ hj
    rw [trilStrict, if_neg (by simpa using hj)]
    norm_num

/-- C7: the derivative of the forward map `tanh` at `x = 1` is
`1 / cosh(1)^2`, whose log is `-2*log(cosh(1))` — but the code's
`log_abs_det_jacobian`, which evaluates `-2*log(cosh(.))` at the OUTPUT
`y = tanh(1)`, returns a different number: the analytic formula as coded is
not consistent with differentiating the forward map. -/
theorem tanh_jacobian_mismatch :
    HasDerivAt tanhForward (1 / Real.cosh 1 ^ 2) 1 ∧
    Real.log (1 / Real.cosh 1 ^ 2) = (-2) * Real.log (Real.cosh 1) ∧
    tanhLogAbsDetJacobian 1 (tanhForward 1) ≠ Real.log (1 / Real.cosh 1 ^ 2) := by
  have hcpos : (0 : ℝ) < Real.cosh 1 := Real.cosh_pos 1
  refine ⟨?_, ?_, ?_⟩
  · have h := (Real.hasDerivAt_sinh 1).div (Real.hasDerivAt_cosh 1)
      (ne_of_gt hcpos)
    have hfun : (fun y => Real.sinh y / Real.cosh y) = tanhForward := by
      funext y
      rw [tanhForward, Real.tanh_eq_sinh_div_cosh]
    rw [hfun] at h
    have hval : (Real.cosh 1 * Real.cosh 1 - Real.sinh 1 * Real.sinh 1) /
        Real.cosh 1 ^ 2 = 1 / Real.cosh 1 ^ 2 := by
      have hsq := Real.cosh_sq_sub_sinh_sq 1
      congr 1
      nlinarith [hsq]
    rw [hval] at h
    exact h
  · rw [one_div, Real.log_inv, Real.log_pow]
    push_cast
    ring
  · have htpos : 0 < Real.tanh 1 := by
      rw [Real.tanh_eq_sinh_div_cosh]
      exact div_pos (Real.sinh_pos_iff.mpr one_pos) hcpos
    have htlt : Real.tanh 1 < 1 := by
      rw [Real.tanh_eq_sinh_div_cosh]
      exact (div_lt_one hcpos).mpr (Real.sinh_lt_cosh 1)
    have hcc : Real.cosh (Real.tanh 1) < Real.cosh 1 := by
      apply Real.cosh_lt_cosh.mpr
      rw [abs_of_pos htpos, abs_one]
      exact htlt
    have hlog : Real.log (Real.cosh (Real.tanh 1)) < Real.log (Real.cosh 1) :=
      Real.log_lt_log (Real.cosh_pos _) hcc
    rw [tanhLogAbsDetJacobian, tanhForward, one_div, Real.log_inv, Real.log_pow]
    push_cast
    intro heq
    linarith

/-- The running sum of squares is nonnegative. -/
lemma pcSq_nonneg (w : ℕ → ℝ) (n : ℕ) : 0 ≤ pcSq w n := by
  induction n with
  | zero => simp [pcSq]
  | succ n ih =>
    rw [pcSq]
    exact add_nonneg ih (sq_nonneg _)

/-- As long as every consumed `z`-value has square below 1, the residual
`1 - last_squared_x` stays strictly positive: each step multiplies it by
`1 - (w n)^2`. -/
lemma one_sub_pcSq_pos (w : ℕ → ℝ) (n : ℕ) (hw : ∀ j < n, w j ^ 2 < 1) :
    0 < 1 - pcSq w n := by
  induction n with
  | zero => simp [pcSq]
  | succ n ih =>
    have ih' := ih fun j hj => hw j (Nat.lt_succ_of_lt hj)
    have hsq : Real.sqrt (1 - pcSq w n) ^ 2 = 1 - pcSq w n :=
      Real.sq_sqrt (le_of_lt ih')
    have hwn := hw n (Nat.lt_succ_self n)
    have hmp : (w n * Real.sqrt (1 - pcSq w n)) ^ 2 = w n ^ 2 * (1 - pcSq w n) := by
      rw [mul_pow, hsq]
    rw [pcSq, hmp]
    nlinarith [mul_pos (sub_pos.mpr hwn) ih']

/-- The running sum of squares is exactly the sum of squares of the placed
entries, as the code maintains it. -/
lemma pcSq_eq_sum (w : ℕ → ℝ) (n : ℕ) :
    pcSq w n = ∑ j ∈ Finset.range n, pcEntry w j ^ 2 := by
  induction n with
  | zero => simp [pcSq]
  | succ n ih =>
    rw [Finset.sum_range_succ, ← ih, pcSq, pcEntry]

/-- One step of the column offset. -/
lemma colOffset_succ (D j : ℕ) :
    colOffset D (j + 1) = colOffset D j + (D - 1 - j) :=
  Finset.sum_range_succ _ _

/-- The column offset is monotone. -/
lemma colOffset_le (D : ℕ) {a b : ℕ} (h : a ≤ b) :
    colOffset D a ≤ colOffset D b :=
  Finset.sum_le_sum_of_subset (Finset.range_subset.mpr h)

/-- Twice the sum of the first descending run `n, n-1, ..., 1`. -/
lemma two_mul_sum_range_sub (n : ℕ) :
    2 * (∑ k ∈ Finset.range n, (n - k)) = n * (n + 1) := by
  induction n with
  | zero => simp
  | succ n ih =>
    have hstep : ∑ k ∈ Finset.range (n + 1), (n + 1 - k)
        = (∑ k ∈ Finset.range n, (n - k)) + (n + 1) := by
      rw [Finset.sum_range_succ]
      have hcongr : ∑ k ∈ Finset.range n, (n + 1 - k)
          = ∑ k ∈ Finset.range n, ((n - k) + 1) := by
        apply Finset.sum_congr rfl
        intro k hk
        have := Finset.mem_range.mp hk
        omega
      rw [hcongr, Finset.sum_add_distrib]
      simp
      omega
    rw [hstep]
    calc 2 * ((∑ k ∈ Finset.range n, (n - k)) + (n + 1))
        = 2 * (∑ k ∈ Finset.range n, (n - k)) + 2 * (n + 1) := by ring
      _ = n * (n + 1) + 2 * (n + 1) := by rw [ih]
      _ = (n + 1) * (n + 1 + 1) := by ring

/-- The total number of `z`-values consumed by all columns is
`D * (D - 1) / 2`. -/
lemma two_mul_colOffset_last (D : ℕ) :
    2 * colOffset D (D - 1) = D * (D - 1) := by
  rw [colOffset, two_mul_sum_range_sub (D - 1)]
  cases D with
  | zero => simp
  | succ n => simp [Nat.mul_comm]

/-- The `z`-index consumed by sub-diagonal entry `(i, j)` is within the
input vector's length `D * (D - 1) / 2`. -/
lemma index_lt (D i j : ℕ) (hj : j < i) (hi : i < D) :
    colOffset D j + (i - j - 1) < D * (D - 1) / 2 := by
  have h1 : colOffset D j + (i - j - 1) < colOffset D (j + 1) := by
    rw [colOffset_succ]
    omega
  have h2 : colOffset D (j + 1) ≤ colOffset D (D - 1) :=
    colOffset_le D (by omega)
  have h3 := two_mul_colOffset_last D
  omega

/-- C3: for every `D >= 2` and every input vector with all consumed entries
in `(-1, 1)`, the matrix built by the vine forward map passes the validator:
lower-triangular, strictly positive diagonal, and every row of Euclidean
norm 1 (so within the `1e-6` tolerance). -/
theorem vineX_satisfies_check (D : ℕ) (z : ℕ → ℝ) (hD : 2 ≤ D)
    (hz : ∀ m < D * (D - 1) / 2, -1 < z m ∧ z m < 1) :
    corrCholeskyCheck D (vineX D z) := by
  have hw : ∀ i < D, ∀ j < i, (rowZ z D i j) ^ 2 < 1 := by
    intro i hi j hj
    obtain ⟨h1, h2⟩ := hz _ (index_lt D i j hj hi)
    rw [rowZ]
    nlinarith
  refine ⟨?_, ?_, ?_⟩
  · intro i _ j _
    rw [tril]
    by_cases h : j ≤ i
    · rw [if_pos h]
    · rw [if_neg h, vineX, if_pos (not_le.mp h)]
  · intro i hi
    have hpos := one_sub_pcSq_pos (rowZ z D i) i (hw i hi)
    have hd : vineX D z i i = Real.sqrt (1 - pcSq (rowZ z D i) i) := by
      rw [vineX, if_neg (lt_irrefl i), if_pos rfl]
    rw [hd]
    exact Real.sqrt_pos.mpr hpos
  · intro i hi
    have hpos := one_sub_pcSq_pos (rowZ z D i) i (hw i hi)
    have hzero : ∀ j ∈ Finset.range D, j ∉ Finset.range (i + 1) →
        (vineX D z i j) ^ 2 = 0 := by
      intro j _ hj
      have hij : i < j := by
        have : ¬ j < i + 1 := fun hc => hj (Finset.mem_range.mpr hc)
        omega
      rw [vineX, if_pos hij]
      norm_num
    have hsum : rowSumSq D (vineX D z) i = 1 := by
      rw [rowSumSq,
        ← Finset.sum_subset (Finset.range_subset.mpr (by omega : i + 1 ≤ D)) hzero,
        Finset.sum_range_succ]
      have hdiag : vineX D z i i = Real.sqrt (1 - pcSq (rowZ z D i) i) := by
        rw [vineX, if_neg (lt_irrefl i), if_pos rfl]
      have hsub : ∑ j ∈ Finset.range i, (vineX D z i j) ^ 2
          = ∑ j ∈ Finset.range i, pcEntry (rowZ z D i) j ^ 2 := by
        apply Finset.sum_congr rfl
        intro j hj
        have hj' : j < i := Finset.mem_range.mp hj
        rw [vineX, if_neg (by omega), if_neg (by omega)]
      rw [hsub, hdiag, ← pcSq_eq_sum, Real.sq_sqrt (le_of_lt hpos)]
      ring
    rw [hsum]
    norm_num

/-- Witness for C3 at `D = 2` and the zero vector. -/
theorem vineX_satisfies_check_witness :
    (2 ≤ 2 ∧ ∀ m < 2 * (2 - 1) / 2,
      -1 < (fun _ : ℕ => (0 : ℝ)) m ∧ (fun _ : ℕ => (0 : ℝ)) m < 1) ∧
    corrCholeskyCheck 2 (vineX 2 fun _ => (0 : ℝ)) :=
  ⟨⟨le_refl 2, by norm_num⟩,
    vineX_satisfies_check 2 (fun _ => (0 : ℝ)) (le_refl 2) (by norm_num)⟩

/-- C1: the composed round trip fails already at `D = 2`, `u = [0]`
(`L = 1`): the inverse returns a length-2 vector `[0, 0]` — it appends the
rescaled diagonal entry instead of reconstructing only the `L` sub-diagonal
coordinates — which cannot equal the length-1 input `[0]`. -/
theorem composed_roundtrip_fails :
    composeInverseCode 2 (composeForward 2 fun _ => 0) = some [0, 0] ∧
    (some [(0 : ℝ), 0] : Option (List ℝ)) ≠ some [(0 : ℝ)] := by
  constructor
  · rw [composeInverseCode, composeForward]
    have hx10 : vineX 2 (fun m => tanhForward ((fun _ : ℕ => (0 : ℝ)) m)) 1 0 = 0 := by
      norm_num [vineX, pcEntry, pcSq, rowZ, tanhForward, Real.tanh_zero]
    have hx11 : vineX 2 (fun m => tanhForward ((fun _ : ℕ => (0 : ℝ)) m)) 1 1 = 1 := by
      norm_num [vineX, pcEntry, pcSq, rowZ, tanhForward, Real.tanh_zero,
        Real.sqrt_one]
    rw [pcInverseCode, if_neg (by omega)]
    simp only [colSlice]
    norm_num [List.range_succ, hx10, hx11, bcastDiv, tanhInverse]
  · simp

end LKJ
